/-
  Verification of the `lily` widget library (CurveEditor / `MsegGraph` and
  AxisPad / `XyPad`) against its natural-language specification.

  The two event handlers `MsegGraph::event` (src/lily/src/widgets/mseg/graph.rs)
  and `XyPad::event` (src/lily/src/widgets/xy_pad.rs) are shallowly embedded as
  pure step functions on explicit state.  `f32` arithmetic is modelled by exact
  rational arithmetic (`ℚ`); `usize` subtraction is modelled with release-mode
  wrap-around where the source can underflow.  Callbacks, `capture()` and
  `release()` are modelled as emitted actions.  The shared coordinate-mapping
  module (src/lily/src/widgets/mseg/util.rs and `BoundingBoxExt`) is not among
  the sources; those functions are modelled from the specification and marked
  as such in their doc comments.
-/
import Mathlib

namespace Lily

/-- 2D vector over exact rationals, modelling `glam::Vec2` (`f32` components). -/
structure Vec2 where
  x : ℚ
  y : ℚ
deriving DecidableEq, Repr

/-- Componentwise maximum, modelling `glam::Vec2::max`. -/
def Vec2.vmax (a b : Vec2) : Vec2 := ⟨max a.x b.x, max a.y b.y⟩

/-- Componentwise minimum, modelling `glam::Vec2::min`. -/
def Vec2.vmin (a b : Vec2) : Vec2 := ⟨min a.x b.x, min a.y b.y⟩

/-- `glam::Vec2::clamp(self, min, max)`, which is `self.max(min).min(max)`
componentwise. -/
def Vec2.clamp (v lo hi : Vec2) : Vec2 := (v.vmax lo).vmin hi

/-- `glam::Vec2::distance_squared`. -/
def Vec2.distanceSquared (a b : Vec2) : ℚ := (a.x - b.x) ^ 2 + (a.y - b.y) ^ 2

/-- `const HOVER_RADIUS: f32 = 16f32;` (graph.rs line 11, xy_pad.rs line 11). -/
def HOVER_RADIUS : ℚ := 16

/-- `const MIN_RESOLUTION: f32 = 0.01f32;` (graph.rs line 13). -/
def MIN_RESOLUTION : ℚ := 1 / 100

/-- Release-mode `usize` subtraction `n - 1`: Rust release builds wrap on
underflow, so `0 - 1` yields `usize::MAX = 2^64 - 1` (64-bit target).  Debug
builds would panic instead; the release semantics is modelled. -/
def usizeSub1 (n : Nat) : Nat := if n = 0 then 2 ^ 64 - 1 else n - 1

/-- Widget layout bounds: origin `(x, y)`, width `w`, height `h`. -/
structure Bounds where
  x : ℚ
  y : ℚ
  w : ℚ
  h : ℚ
deriving DecidableEq, Repr

/-- Zoom range, modelling `RangeInclusive<f32>`: the visible fraction
`[start, stop] ⊆ [0, 1]` of the full domain (`start()` / `end()` in Rust). -/
structure ZoomRange where
  start : ℚ
  stop : ℚ
deriving DecidableEq, Repr

/-- Modelled from the spec: `data_to_ui_pos_range` of the coordinate-mapping
module (src/lily/src/widgets/mseg/util.rs, not among the sources).  Per spec
§4.1 it maps `x ∈ [range.start*max, range.end*max]` linearly to `[0, width]`
and `y ∈ [0, 1]` linearly inverted to `[0, height]` (pixel y grows downward). -/
def dataToUiPosRange (b : Bounds) (p : Vec2) (r : ZoomRange) (maxDomain : ℚ) : Vec2 :=
  ⟨(p.x - r.start * maxDomain) / ((r.stop - r.start) * maxDomain) * b.w,
   (1 - p.y) * b.h⟩

/-- Modelled from the spec: `ui_to_data_pos_range` of the coordinate-mapping
module (not among the sources), specified as the exact inverse of
`data_to_ui_pos_range`. -/
def uiToDataPosRange (b : Bounds) (p : Vec2) (r : ZoomRange) (maxDomain : ℚ) : Vec2 :=
  ⟨r.start * maxDomain + p.x / b.w * ((r.stop - r.start) * maxDomain),
   1 - p.y / b.h⟩

/-- Modelled from the spec: `BoundingBoxExt::map_data_point` (crate util module,
not among the sources).  Per spec §4.1 the AxisPad domain `[-1,1] × [-1,1]` is
mapped onto the widget's bounds, y-inverted (the `true` flag at the call sites
requests the y inversion). -/
def mapDataPoint (b : Bounds) (p : Vec2) : Vec2 :=
  ⟨b.x + (p.x + 1) / 2 * b.w, b.y + (1 - (p.y + 1) / 2) * b.h⟩

/-- Modelled from the spec: `BoundingBoxExt::map_ui_point` (not among the
sources), the inverse of `map_data_point` back into `[-1,1] × [-1,1]`. -/
def mapUiPoint (b : Bounds) (u : Vec2) : Vec2 :=
  ⟨(u.x - b.x) / b.w * 2 - 1, (1 - (u.y - b.y) / b.h) * 2 - 1⟩

/-- `vizia` mouse buttons, as matched by both widgets. -/
inductive MouseButton
  | Left
  | Right
  | Middle
  | Other
deriving DecidableEq, Repr

/-- The window events both widgets handle. -/
inductive WindowEvent
  | MouseDown (b : MouseButton)
  | MouseUp (b : MouseButton)
  | MouseMove (x y : ℚ)
deriving DecidableEq, Repr

/-! ### CurveEditor (`MsegGraph`) -/

/-- The mutable widget state of `MsegGraph` that the event handler touches:
`active_point_id` and `is_dragging_point` (graph.rs lines 36, 39). -/
structure GraphState where
  activePointId : Option Nat
  isDraggingPoint : Bool
deriving DecidableEq, Repr

/-- Effects emitted by `MsegGraph::event`: pointer capture/release and the
three owner callbacks (`on_changing_point`, `on_remove_point`,
`on_insert_point`). -/
inductive GAction
  | capture
  | release
  | changingPoint (i : Nat) (v : Vec2)
  | removePoint (i : Nat)
  | insertPoint (i : Nat) (v : Vec2)
deriving DecidableEq, Repr

/-- The read-only environment of one `MsegGraph::event` pass: the observed
points, zoom range, max domain, widget bounds, and whether the optional
`on_changing_point` / `on_remove_point` callbacks are registered (`Some`). -/
structure GraphEnv where
  points : List Vec2
  range : ZoomRange
  maxDomain : ℚ
  bounds : Bounds
  hasChanging : Bool
  hasRemove : Bool
deriving DecidableEq, Repr

/-- The pixel positions of all points, computed at the start of
`MsegGraph::event` (graph.rs lines 100-110). -/
def uiPoints (env : GraphEnv) : List Vec2 :=
  env.points.map (fun p => dataToUiPosRange env.bounds p env.range env.maxDomain)

/-- The squared-distance sort key used at graph.rs lines 195-200. -/
def distKey (cur : Vec2) (ip : Nat × Vec2) : ℚ := ip.2.distanceSquared cur

/-- One insertion step of a stable sort by squared distance, modelling the
stable `sort_by` with the squared-distance comparator (graph.rs lines
195-200): an element is placed after every earlier element whose key is
strictly smaller, and after earlier elements with an equal key. -/
def insertByDist (cur : Vec2) (a : Nat × Vec2) : List (Nat × Vec2) → List (Nat × Vec2)
  | [] => [a]
  | b :: l => if distKey cur b < distKey cur a then b :: insertByDist cur a l else a :: b :: l

/-- Stable sort by squared distance to the cursor, modelling
`filtered_points.sort_by(...)` (graph.rs lines 195-200; Rust `sort_by` is
stable, and on rationals the comparator is total so the `Ordering::Equal`
fallback for incomparable values never fires). -/
def sortByDist (cur : Vec2) : List (Nat × Vec2) → List (Nat × Vec2)
  | [] => []
  | a :: l => insertByDist cur a (sortByDist cur l)

/-- The element that ends up at the head of the stable sort: the earliest
element of the list attaining the least squared distance. -/
def firstMin (cur : Vec2) : List (Nat × Vec2) → Option (Nat × Vec2)
  | [] => none
  | a :: l =>
      match firstMin cur l with
      | none => some a
      | some b => some (if distKey cur b < distKey cur a then b else a)

/-- One pass of `MsegGraph::event` (graph.rs lines 98-214) on a single window
event: returns the new state and the actions emitted, or `none` when the
handler panics (the `self.active_point_id.unwrap()` at line 154 on a dragging
pointer-move with no active point). -/
def graphStep (env : GraphEnv) (s : GraphState) (ev : WindowEvent) :
    Option (GraphState × List GAction) :=
  match ev with
  | .MouseDown .Left =>
      -- graph.rs lines 115-124
      if s.activePointId.isSome then
        some ({ s with isDraggingPoint := true }, [.capture])
      else
        some (s, [])
  | .MouseDown .Right =>
      -- graph.rs lines 125-134
      match s.activePointId with
      | some index =>
          some ({ s with isDraggingPoint := false },
                .release :: (if env.hasRemove then [.removePoint index] else []))
      | none => some (s, [])
  | .MouseDown _ => some (s, [])
  | .MouseUp b =>
      -- graph.rs lines 140-145
      if b = .Left then some ({ s with isDraggingPoint := false }, [.release])
      else some (s, [])
  | .MouseMove mx my =>
      let currentPos : Vec2 := ⟨mx, my⟩
      if s.isDraggingPoint then
        -- graph.rs lines 151-175
        if env.hasChanging then
          match s.activePointId with
          | none => none
          | some activeId =>
            let newV : Vec2 :=
              if activeId ≠ 0 then
                uiToDataPosRange env.bounds currentPos env.range env.maxDomain
              else ⟨0, 0⟩
            let newV : Vec2 :=
              if activeId = usizeSub1 env.points.length then { newV with y := 0 } else newV
            let rightBound : ℚ :=
              (match env.points.get? (activeId + 1) with
               | some p => p.x
               | none => env.maxDomain) - MIN_RESOLUTION
            let leftBound : ℚ :=
              (match env.points.get? (usizeSub1 activeId) with
               | some p => p.x
               | none => 0) + MIN_RESOLUTION
            let newV := newV.clamp ⟨leftBound, 0⟩ ⟨rightBound, 1⟩
            some (s, [.changingPoint activeId newV])
        else some (s, [])
      else
        -- graph.rs lines 178-209
        let filtered := (uiPoints env).enum.filter
          (fun ip => ip.2.distanceSquared currentPos ≤ HOVER_RADIUS ^ 2)
        match (sortByDist currentPos filtered).head? with
        | some ip => some ({ s with activePointId := some ip.1 }, [])
        | none => some ({ s with activePointId := none }, [])

/-- Sequential processing of a list of window events by `MsegGraph`,
accumulating emitted actions in order; `none` as soon as one step panics. -/
def graphRun (env : GraphEnv) : GraphState → List WindowEvent →
    Option (GraphState × List GAction)
  | s, [] => some (s, [])
  | s, ev :: evs =>
      match graphStep env s ev with
      | none => none
      | some (s', acts) =>
          match graphRun env s' evs with
          | none => none
          | some (s'', acts') => some (s'', acts ++ acts')

/-! ### AxisPad (`XyPad`) -/

/-- `XyPad`'s `InternalState` (xy_pad.rs lines 27-32).  `NoOp` is the spec's
`Idle`. -/
inductive InternalState
  | NoOp
  | Hovering
  | Dragging
deriving DecidableEq, Repr

/-- Effects emitted by `XyPad::event`: capture/release and the
`on_changing_point` callback. -/
inductive PAction
  | capture
  | release
  | changingPoint (v : Vec2)
deriving DecidableEq, Repr

/-- The read-only environment of one `XyPad::event` pass: the observed point,
the widget bounds, and whether `on_changing_point` is registered. -/
structure XyEnv where
  point : Vec2
  bounds : Bounds
  hasChanging : Bool
deriving DecidableEq, Repr

/-- The window-event part of `XyPad::event` (xy_pad.rs lines 75-124).  Returns
the state as assigned directly by the handler, the `InternalEvent::UpdateState`
payloads emitted via `cx.emit` (in order), and the emitted actions.  Note the
handler reads `self.state` as it was on entry: emitted updates are queued and
only take effect after the handler returns. -/
def xyHandle (env : XyEnv) (s : InternalState) (ev : WindowEvent) :
    InternalState × List InternalState × List PAction :=
  match ev with
  | .MouseMove mx my =>
      -- xy_pad.rs lines 77-103
      let uiPoint := mapDataPoint env.bounds env.point
      let cursor : Vec2 := ⟨mx, my⟩
      let emits :=
        if cursor.distanceSquared uiPoint ≤ HOVER_RADIUS ^ 2 then
          if s = .NoOp then [InternalState.Hovering] else []
        else
          if s ≠ .Dragging then [InternalState.NoOp] else []
      let acts :=
        if s = .Dragging ∧ env.hasChanging then
          [PAction.changingPoint (mapUiPoint env.bounds cursor)]
        else []
      (s, emits, acts)
  | .MouseDown b =>
      -- xy_pad.rs lines 104-111: capture on every left press
      if b = .Left then
        ((if s = .Hovering then .Dragging else s), [], [.capture])
      else (s, [], [])
  | .MouseUp b =>
      -- xy_pad.rs lines 112-121
      if b = .Left then
        ((if s = .Dragging then .Hovering else .NoOp), [], [.release])
      else (s, [], [])

/-- One `XyPad` window event followed by delivery of the queued
`InternalEvent::UpdateState` events (xy_pad.rs lines 70-74): each delivery
overwrites `self.state` with the emitted value. -/
def xyStep (env : XyEnv) (s : InternalState) (ev : WindowEvent) :
    InternalState × List PAction :=
  let r := xyHandle env s ev
  (r.2.1.foldl (fun _ st => st) r.1, r.2.2)

/-- Sequential processing of a list of window events by `XyPad`, accumulating
emitted actions in order. -/
def xyRun (env : XyEnv) : InternalState → List WindowEvent →
    InternalState × List PAction
  | s, [] => (s, [])
  | s, ev :: evs =>
      let r := xyStep env s ev
      let r' := xyRun env r.1 evs
      (r'.1, r.2 ++ r'.2)

/-- Pointer-capture bookkeeping: fold capture/release actions of the graph
widget over a held/not-held flag. -/
def applyGActs (c : Bool) (acts : List GAction) : Bool :=
  acts.foldl (fun c a =>
    match a with
    | .capture => true
    | .release => false
    | _ => c) c

/-- Pointer-capture bookkeeping for the pad widget's actions. -/
def applyPActs (c : Bool) (acts : List PAction) : Bool :=
  acts.foldl (fun c a =>
    match a with
    | .capture => true
    | .release => false
    | _ => c) c

/-! ### Theorems -/

/-- C1: the claim states that a drag with active index 0 always invokes
`onPointChanging(0, (0,0))`.  The code forces the candidate to `Vec2::ZERO`
(graph.rs line 158) but then applies the neighbour clamp to index 0 as well:
`points.get(active_id - 1)` underflows `usize` (wrapping to `usize::MAX` in
release builds, so the lookup misses and the left bound becomes
`0 + MIN_RESOLUTION = 0.01`), and the clamp moves the candidate's x to `0.01`.
At the concrete input below the callback receives `(0.01, 0)`, not `(0,0)`. -/
theorem mseg_drag_first_point_clamped_off_origin :
    graphStep
      { points := [⟨0, 0⟩, ⟨2, 1⟩, ⟨5, 1/2⟩, ⟨8, 0⟩],
        range := ⟨0, 1⟩, maxDomain := 8, bounds := ⟨0, 0, 100, 100⟩,
        hasChanging := true, hasRemove := true }
      ⟨some 0, true⟩ (.MouseMove 30 40)
      = some (⟨some 0, true⟩, [.changingPoint 0 ⟨1/100, 0⟩]) ∧
    (⟨1/100, 0⟩ : Vec2) ≠ (⟨0, 0⟩ : Vec2) := by
  have hnone :
      ([⟨0, 0⟩, ⟨2, 1⟩, ⟨5, 1/2⟩, ⟨8, 0⟩] : List Vec2).get? (usizeSub1 0) = none := by
    rw [List.get?_eq_none]
    norm_num [usizeSub1]
  constructor
  · simp only [graphStep]
    norm_num [hnone, usizeSub1, MIN_RESOLUTION, Vec2.clamp, Vec2.vmax, Vec2.vmin]
  · simp only [ne_eq, Vec2.mk.injEq, not_and]
    norm_num

/-- C6: whenever a drag is in progress with active index equal to the last
index (`points.len() - 1`), the candidate passed to `onPointChanging` has
`y = 0`, regardless of the pointer position. -/
theorem mseg_drag_last_point_y_zero (env : GraphEnv) (s : GraphState)
    (mx my : ℚ) (i : Nat)
    (hd : s.isDraggingPoint = true) (ha : s.activePointId = some i)
    (hc : env.hasChanging = true) (hl : env.points.length = i + 1) :
    ∃ v : Vec2,
      graphStep env s (.MouseMove mx my) = some (s, [.changingPoint i v]) ∧
      v.y = 0 := by
  have hsub : usizeSub1 env.points.length = i := by
    simp [usizeSub1, hl]
  simp only [graphStep, hd, hc, ha, hsub, if_true, eq_self_iff_true]
  refine ⟨_, rfl, ?_⟩
  simp [Vec2.clamp, Vec2.vmax, Vec2.vmin]

/-- C7: a right-button press while point `i` is hovered releases capture,
clears the dragging flag (even if it was set), invokes `onPointRemoved(i)`
exactly once and leaves the hover index unchanged; a right-button press while
no point is hovered is a no-op. -/
theorem mseg_remove_point (env : GraphEnv) (s s₂ : GraphState) (i : Nat)
    (ha : s.activePointId = some i) (hr : env.hasRemove = true)
    (h₂ : s₂.activePointId = none) :
    graphStep env s (.MouseDown .Right)
      = some (⟨some i, false⟩, [.release, .removePoint i]) ∧
    graphStep env s₂ (.MouseDown .Right) = some (s₂, []) := by
  obtain ⟨ap, dr⟩ := s
  simp only [GraphState.mk.injEq] at ha ⊢
  subst ha
  constructor
  · simp [graphStep, hr]
  · simp [graphStep, h₂]

/-- C8: round-trip of the coordinate mapping (spec-modelled module): for every
bounds with positive width and height, zoom range `[s,e]` with `0 ≤ s < e ≤ 1`
and max domain `m > 0`, `uiToData (dataToUi p)` returns `p` exactly for every
`p` with `x ∈ [s*m, e*m]` and `y ∈ [0,1]` — in particular within `1e-4`. -/
theorem mapping_round_trip (b : Bounds) (s e m px py : ℚ)
    (_hs : 0 ≤ s) (hse : s < e) (_he : e ≤ 1) (hm : 0 < m)
    (hw : 0 < b.w) (hh : 0 < b.h)
    (_hx1 : s * m ≤ px) (_hx2 : px ≤ e * m) (_hy1 : 0 ≤ py) (_hy2 : py ≤ 1) :
    uiToDataPosRange b (dataToUiPosRange b ⟨px, py⟩ ⟨s, e⟩ m) ⟨s, e⟩ m
      = ⟨px, py⟩ ∧
    |(uiToDataPosRange b (dataToUiPosRange b ⟨px, py⟩ ⟨s, e⟩ m) ⟨s, e⟩ m).x - px|
      ≤ 1 / 10000 ∧
    |(uiToDataPosRange b (dataToUiPosRange b ⟨px, py⟩ ⟨s, e⟩ m) ⟨s, e⟩ m).y - py|
      ≤ 1 / 10000 := by
  have hwne : b.w ≠ 0 := ne_of_gt hw
  have hhne : b.h ≠ 0 := ne_of_gt hh
  have hes : (e - s) * m ≠ 0 :=
    mul_ne_zero (sub_ne_zero.mpr (ne_of_gt hse)) (ne_of_gt hm)
  have key : uiToDataPosRange b (dataToUiPosRange b ⟨px, py⟩ ⟨s, e⟩ m) ⟨s, e⟩ m
      = ⟨px, py⟩ := by
    simp only [uiToDataPosRange, dataToUiPosRange, Vec2.mk.injEq]
    constructor
    · field_simp
      ring
    · field_simp
  refine ⟨key, ?_, ?_⟩
  · rw [key]
    simp
  · rw [key]
    simp

/-- C8 witness: the round-trip theorem applied at concrete inputs. -/
theorem mapping_round_trip_witness :
    (0 : ℚ) < 8 ∧ (1/4 : ℚ) < 3/4 ∧
    uiToDataPosRange ⟨0, 0, 200, 100⟩
        (dataToUiPosRange ⟨0, 0, 200, 100⟩ ⟨3, 1/2⟩ ⟨1/4, 3/4⟩ 8) ⟨1/4, 3/4⟩ 8
      = ⟨3, 1/2⟩ :=
  ⟨by norm_num, by norm_num,
   (mapping_round_trip ⟨0, 0, 200, 100⟩ (1/4) (3/4) 8 3 (1/2)
      (by norm_num) (by norm_num) (by norm_num) (by norm_num) (by norm_num)
      (by norm_num) (by norm_num) (by norm_num) (by norm_num) (by norm_num)).1⟩

/-- C6 witness: dragging the last point of a 4-point envelope. -/
theorem mseg_drag_last_point_y_zero_witness :
    (⟨some 3, true⟩ : GraphState).isDraggingPoint = true ∧
    ∃ v : Vec2,
      graphStep
        { points := [⟨0, 0⟩, ⟨2, 1⟩, ⟨5, 1/2⟩, ⟨8, 0⟩],
          range := ⟨0, 1⟩, maxDomain := 8, bounds := ⟨0, 0, 100, 100⟩,
          hasChanging := true, hasRemove := true }
        ⟨some 3, true⟩ (.MouseMove 50 10)
        = some (⟨some 3, true⟩, [.changingPoint 3 v]) ∧ v.y = 0 :=
  ⟨rfl, mseg_drag_last_point_y_zero _ _ 50 10 3 rfl rfl rfl (by decide)⟩

/-- C7 witness: removal of point 1 in a 4-point envelope while dragging was
erroneously set. -/
theorem mseg_remove_point_witness :
    (⟨some 1, true⟩ : GraphState).activePointId = some 1 ∧
    graphStep
      { points := [⟨0, 0⟩, ⟨2, 1⟩, ⟨5, 1/2⟩, ⟨8, 0⟩],
        range := ⟨0, 1⟩, maxDomain := 8, bounds := ⟨0, 0, 100, 100⟩,
        hasChanging := true, hasRemove := true }
      ⟨some 1, true⟩ (.MouseDown .Right)
      = some (⟨some 1, false⟩, [.release, .removePoint 1]) ∧
    graphStep
      { points := [⟨0, 0⟩, ⟨2, 1⟩, ⟨5, 1/2⟩, ⟨8, 0⟩],
        range := ⟨0, 1⟩, maxDomain := 8, bounds := ⟨0, 0, 100, 100⟩,
        hasChanging := true, hasRemove := true }
      ⟨none, false⟩ (.MouseDown .Right)
      = some (⟨none, false⟩, []) := by
  refine ⟨rfl, ?_, ?_⟩
  · exact (mseg_remove_point _ _ ⟨none, false⟩ 1 rfl rfl rfl).1
  · exact (mseg_remove_point _ ⟨some 1, true⟩ _ 1 rfl rfl rfl).2

/-- C3: for every drag pointer-move with active index `i > 0` (a valid index),
the candidate passed to `onPointChanging` has `x` clamped to
`[leftNeighbor.x + MIN_RESOLUTION, rightNeighbor.x − MIN_RESOLUTION]` (with `0`
as the implicit left bound and `maxDomain` as the implicit right bound when the
neighbour is missing) and `y` clamped to `[0, 1]` (after the last-index pin). -/
theorem mseg_drag_clamp_interior (env : GraphEnv) (s : GraphState)
    (mx my : ℚ) (i : Nat)
    (hd : s.isDraggingPoint = true) (ha : s.activePointId = some i)
    (hc : env.hasChanging = true) (hi : 0 < i) (hlen : i < env.points.length) :
    graphStep env s (.MouseMove mx my)
      = some (s, [.changingPoint i
          { x := min (max (uiToDataPosRange env.bounds ⟨mx, my⟩ env.range env.maxDomain).x
                     ((match env.points.get? (i - 1) with
                       | some p => p.x
                       | none => 0) + MIN_RESOLUTION))
                   ((match env.points.get? (i + 1) with
                     | some p => p.x
                     | none => env.maxDomain) - MIN_RESOLUTION),
            y := min (max (if i + 1 = env.points.length then 0
                           else (uiToDataPosRange env.bounds ⟨mx, my⟩
                                   env.range env.maxDomain).y) 0) 1 }]) := by
  have hi0 : ¬ i = 0 := Nat.pos_iff_ne_zero.mp hi
  have hsub : usizeSub1 i = i - 1 := by
    simp [usizeSub1, hi0]
  have hlen0 : ¬ env.points.length = 0 := by omega
  have hsubLen : usizeSub1 env.points.length = env.points.length - 1 := by
    simp [usizeSub1, hlen0]
  have hIff : (i = env.points.length - 1) = (i + 1 = env.points.length) := by
    apply propext
    omega
  simp only [graphStep, hd, hc, ha, hsub, hsubLen, hIff, ne_eq, hi0,
    not_false_eq_true, if_true, Option.some.injEq, Prod.mk.injEq, List.cons.injEq,
    and_true, true_and]
  simp only [Vec2.clamp, Vec2.vmax, Vec2.vmin, apply_ite Vec2.x, apply_ite Vec2.y,
    ite_self, GAction.changingPoint.injEq, Vec2.mk.injEq, true_and]

/-- C3 witness: points at x = {0, 2, 5, 8}, max = 8; dragging index 2 toward
x = 8.5 clamps to 7.99 and toward x = 1.5 clamps to 2.01. -/
theorem mseg_drag_clamp_interior_witness :
    (0 : Nat) < 2 ∧
    graphStep
      { points := [⟨0, 0⟩, ⟨2, 1⟩, ⟨5, 1/2⟩, ⟨8, 0⟩],
        range := ⟨0, 1⟩, maxDomain := 8, bounds := ⟨0, 0, 100, 100⟩,
        hasChanging := true, hasRemove := true }
      ⟨some 2, true⟩ (.MouseMove (425/4) 40)
      = some (⟨some 2, true⟩, [.changingPoint 2 ⟨799/100, 3/5⟩]) ∧
    graphStep
      { points := [⟨0, 0⟩, ⟨2, 1⟩, ⟨5, 1/2⟩, ⟨8, 0⟩],
        range := ⟨0, 1⟩, maxDomain := 8, bounds := ⟨0, 0, 100, 100⟩,
        hasChanging := true, hasRemove := true }
      ⟨some 2, true⟩ (.MouseMove (75/4) 40)
      = some (⟨some 2, true⟩, [.changingPoint 2 ⟨201/100, 3/5⟩]) := by
  refine ⟨by norm_num, ?_, ?_⟩
  · rw [mseg_drag_clamp_interior _ _ (425/4) 40 2 rfl rfl rfl (by norm_num) (by norm_num)]
    norm_num [uiToDataPosRange, MIN_RESOLUTION]
  · rw [mseg_drag_clamp_interior _ _ (75/4) 40 2 rfl rfl rfl (by norm_num) (by norm_num)]
    norm_num [uiToDataPosRange, MIN_RESOLUTION]

/-- Shape of the actions emitted by a single non-panicking `MsegGraph::event`
pass: `on_insert_point` is never invoked, and `capture()` is called exactly on
a left-button press with a point active. -/
theorem graphStep_actions_spec (env : GraphEnv) (s : GraphState)
    (ev : WindowEvent) (r : GraphState × List GAction)
    (h : graphStep env s ev = some r) :
    (∀ i v, GAction.insertPoint i v ∉ r.2) ∧
    (GAction.capture ∈ r.2 ↔ ev = .MouseDown .Left ∧ s.activePointId.isSome = true) := by
  cases ev with
  | MouseDown b =>
    cases b with
    | Left =>
      by_cases hs : s.activePointId.isSome = true
      · simp only [graphStep, hs, if_true] at h
        obtain rfl := (Option.some.inj h).symm
        simp [hs]
      · simp only [graphStep, hs, if_false] at h
        obtain rfl := (Option.some.inj h).symm
        simp [hs]
    | Right =>
      cases hsa : s.activePointId with
      | none =>
        simp only [graphStep, hsa] at h
        obtain rfl := (Option.some.inj h).symm
        simp
      | some idx =>
        simp only [graphStep, hsa] at h
        obtain rfl := (Option.some.inj h).symm
        constructor
        · intro i v
          split <;> simp
        · constructor
          · intro hmem
            exfalso
            rcases List.mem_cons.mp hmem with h1 | h1
            · exact GAction.noConfusion h1
            · split at h1 <;> simp_all
          · intro ⟨hev, _⟩
            simp at hev
    | Middle =>
      simp only [graphStep] at h
      obtain rfl := (Option.some.inj h).symm
      simp
    | Other =>
      simp only [graphStep] at h
      obtain rfl := (Option.some.inj h).symm
      simp
  | MouseUp b =>
    cases b with
    | Left =>
      simp only [graphStep, if_true] at h
      obtain rfl := (Option.some.inj h).symm
      simp
    | Right =>
      simp only [graphStep] at h
      obtain rfl := (Option.some.inj h).symm
      simp
    | Middle =>
      simp only [graphStep] at h
      obtain rfl := (Option.some.inj h).symm
      simp
    | Other =>
      simp only [graphStep] at h
      obtain rfl := (Option.some.inj h).symm
      simp
  | MouseMove mx my =>
    by_cases hd : s.isDraggingPoint = true
    · by_cases hc : env.hasChanging = true
      · cases hsa : s.activePointId with
        | none =>
          simp only [graphStep, hd, hc, hsa, if_true] at h
          exact Option.noConfusion h
        | some idx =>
          simp only [graphStep, hd, hc, hsa, if_true] at h
          obtain rfl := (Option.some.inj h).symm
          simp
      · simp only [graphStep, hd, hc, if_true, if_false] at h
        obtain rfl := (Option.some.inj h).symm
        simp
    · simp only [graphStep, hd, if_false] at h
      rcases hhead : (sortByDist ⟨mx, my⟩
          ((uiPoints env).enum.filter
            (fun ip => ip.2.distanceSquared ⟨mx, my⟩ ≤ HOVER_RADIUS ^ 2))).head? with _ | ip
      · rw [hhead] at h
        obtain rfl := (Option.some.inj h).symm
        simp
      · rw [hhead] at h
        obtain rfl := (Option.some.inj h).symm
        simp

/-- C9: `onPointInserted` is never invoked: no event sequence makes the
CurveEditor emit an insert action, and in particular a left press while no
point is hovered is a no-op. -/
theorem mseg_insert_never_invoked (env : GraphEnv) :
    (∀ s evs r, graphRun env s evs = some r →
        ∀ i v, GAction.insertPoint i v ∉ r.2) ∧
    (∀ s : GraphState, s.activePointId = none →
        graphStep env s (.MouseDown .Left) = some (s, [])) := by
  constructor
  · intro s evs
    induction evs generalizing s with
    | nil =>
      intro r h i v
      obtain rfl := (Option.some.inj h).symm
      simp
    | cons ev evs ih =>
      intro r h i v
      simp only [graphRun] at h
      cases hstep : graphStep env s ev with
      | none =>
        rw [hstep] at h
        exact Option.noConfusion h
      | some p =>
        obtain ⟨s', acts⟩ := p
        rw [hstep] at h
        dsimp only at h
        cases hrun : graphRun env s' evs with
        | none =>
          rw [hrun] at h
          exact Option.noConfusion h
        | some q =>
          obtain ⟨s'', acts'⟩ := q
          rw [hrun] at h
          obtain rfl := (Option.some.inj h).symm
          rw [List.mem_append]
          exact not_or.mpr
            ⟨(graphStep_actions_spec env s ev _ hstep).1 i v, ih _ _ hrun i v⟩
  · intro s h
    simp [graphStep, h]

/-- C9 witness: a concrete run (left press with nothing hovered, then button
up) emits no insert action, and the press itself is a no-op. -/
theorem mseg_insert_never_invoked_witness :
    (∃ r, graphRun
        { points := [⟨0, 0⟩, ⟨2, 1⟩, ⟨5, 1/2⟩, ⟨8, 0⟩],
          range := ⟨0, 1⟩, maxDomain := 8, bounds := ⟨0, 0, 100, 100⟩,
          hasChanging := true, hasRemove := true }
        ⟨none, false⟩ [.MouseDown .Left, .MouseUp .Left] = some r ∧
      ∀ i v, GAction.insertPoint i v ∉ r.2) ∧
    graphStep
      { points := [⟨0, 0⟩, ⟨2, 1⟩, ⟨5, 1/2⟩, ⟨8, 0⟩],
        range := ⟨0, 1⟩, maxDomain := 8, bounds := ⟨0, 0, 100, 100⟩,
        hasChanging := true, hasRemove := true }
      ⟨none, false⟩ (.MouseDown .Left) = some (⟨none, false⟩, []) := by
  have hrun : graphRun
      { points := [⟨0, 0⟩, ⟨2, 1⟩, ⟨5, 1/2⟩, ⟨8, 0⟩],
        range := ⟨0, 1⟩, maxDomain := 8, bounds := ⟨0, 0, 100, 100⟩,
        hasChanging := true, hasRemove := true }
      (⟨none, false⟩ : GraphState) [.MouseDown .Left, .MouseUp .Left]
      = some (⟨none, false⟩, [.release]) := rfl
  refine ⟨⟨_, hrun, (mseg_insert_never_invoked _).1 _ _ _ hrun⟩, ?_⟩
  exact (mseg_insert_never_invoked _).2 _ rfl

/-- One `MsegGraph::event` pass from a state satisfying the dragging
invariant succeeds (no panicking unwrap) and preserves the invariant. -/
theorem graphStep_preserves_inv (env : GraphEnv) (s : GraphState)
    (ev : WindowEvent)
    (h : s.isDraggingPoint = true → s.activePointId.isSome = true) :
    ∃ s' acts, graphStep env s ev = some (s', acts) ∧
      (s'.isDraggingPoint = true → s'.activePointId.isSome = true) := by
  cases ev with
  | MouseDown b =>
    cases b with
    | Left =>
      by_cases hs : s.activePointId.isSome = true
      · refine ⟨{ s with isDraggingPoint := true }, [.capture], ?_, fun _ => hs⟩
        simp [graphStep, hs]
      · refine ⟨s, [], ?_, h⟩
        simp [graphStep, hs]
    | Right =>
      cases hsa : s.activePointId with
      | none =>
        refine ⟨s, [], ?_, h⟩
        simp [graphStep, hsa]
      | some idx =>
        refine ⟨{ s with isDraggingPoint := false },
          .release :: (if env.hasRemove then [.removePoint idx] else []), ?_, ?_⟩
        · simp [graphStep, hsa]
        · simp [hsa]
    | Middle =>
      refine ⟨s, [], ?_, h⟩
      simp [graphStep]
    | Other =>
      refine ⟨s, [], ?_, h⟩
      simp [graphStep]
  | MouseUp b =>
    cases b with
    | Left =>
      refine ⟨{ s with isDraggingPoint := false }, [.release], ?_, by simp⟩
      simp [graphStep]
    | Right =>
      refine ⟨s, [], ?_, h⟩
      simp [graphStep]
    | Middle =>
      refine ⟨s, [], ?_, h⟩
      simp [graphStep]
    | Other =>
      refine ⟨s, [], ?_, h⟩
      simp [graphStep]
  | MouseMove mx my =>
    by_cases hd : s.isDraggingPoint = true
    · obtain ⟨i, hi⟩ := Option.isSome_iff_exists.mp (h hd)
      by_cases hc : env.hasChanging = true
      · obtain ⟨acts, hstep⟩ :
            ∃ acts, graphStep env s (.MouseMove mx my) = some (s, acts) := by
          simp only [graphStep, hd, hc, hi, if_true]
          exact ⟨_, rfl⟩
        exact ⟨s, acts, hstep, h⟩
      · refine ⟨s, [], ?_, h⟩
        simp only [graphStep, hd, if_true]
        rw [if_neg hc]
    · rcases hhead : (sortByDist ⟨mx, my⟩
          ((uiPoints env).enum.filter
            (fun ip => ip.2.distanceSquared ⟨mx, my⟩ ≤ HOVER_RADIUS ^ 2))).head?
          with _ | ip
      all_goals have hd' : s.isDraggingPoint = false := by simpa using hd
      · refine ⟨{ s with activePointId := none }, [], ?_, ?_⟩
        · simp [graphStep, hd', hhead]
        · intro hcontra
          exact absurd hcontra hd
      · refine ⟨{ s with activePointId := some ip.1 }, [], ?_, ?_⟩
        · simp [graphStep, hd', hhead]
        · intro hcontra
          exact absurd hcontra hd

/-- C10: the predicate "dragging implies an active index is set" holds in the
initial state and is preserved by every window event, so the unconditional
unwrap of the active index on a dragging pointer-move never fails: every step
from an invariant state and every run from the initial state returns `some`. -/
theorem mseg_dragging_invariant :
    (∀ (env : GraphEnv) (s : GraphState) (ev : WindowEvent),
      (s.isDraggingPoint = true → s.activePointId.isSome = true) →
      ∃ s' acts, graphStep env s ev = some (s', acts) ∧
        (s'.isDraggingPoint = true → s'.activePointId.isSome = true)) ∧
    (∀ (env : GraphEnv) (evs : List WindowEvent),
      ∃ r, graphRun env ⟨none, false⟩ evs = some r) := by
  have key : ∀ (env : GraphEnv) (evs : List WindowEvent) (s : GraphState),
      (s.isDraggingPoint = true → s.activePointId.isSome = true) →
      ∃ r, graphRun env s evs = some r ∧
        (r.1.isDraggingPoint = true → r.1.activePointId.isSome = true) := by
    intro env evs
    induction evs with
    | nil => exact fun s h => ⟨(s, []), rfl, h⟩
    | cons ev evs ih =>
      intro s h
      obtain ⟨s', acts, hstep, h'⟩ := graphStep_preserves_inv env s ev h
      obtain ⟨r, hrun, hr⟩ := ih s' h'
      refine ⟨(r.1, acts ++ r.2), ?_, hr⟩
      simp only [graphRun, hstep]
      rw [hrun]
  exact ⟨graphStep_preserves_inv,
    fun env evs => (key env evs ⟨none, false⟩ (by simp)).elim
      (fun r hr => ⟨r, hr.1⟩)⟩

/-- C10 witness: a concrete invariant state and a concrete run from the
initial state. -/
theorem mseg_dragging_invariant_witness :
    (∃ s' acts, graphStep
        { points := [⟨0, 0⟩, ⟨2, 1⟩, ⟨5, 1/2⟩, ⟨8, 0⟩],
          range := ⟨0, 1⟩, maxDomain := 8, bounds := ⟨0, 0, 100, 100⟩,
          hasChanging := true, hasRemove := true }
        ⟨some 1, true⟩ (.MouseUp .Left) = some (s', acts) ∧
      (s'.isDraggingPoint = true → s'.activePointId.isSome = true)) ∧
    (∃ r, graphRun
        { points := [⟨0, 0⟩, ⟨2, 1⟩, ⟨5, 1/2⟩, ⟨8, 0⟩],
          range := ⟨0, 1⟩, maxDomain := 8, bounds := ⟨0, 0, 100, 100⟩,
          hasChanging := true, hasRemove := true }
        ⟨none, false⟩ [.MouseDown .Left, .MouseUp .Left] = some r) :=
  ⟨mseg_dragging_invariant.1 _ ⟨some 1, true⟩ _ (fun _ => rfl),
   mseg_dragging_invariant.2 _ _⟩

/-- C5: from `NoOp` (the spec's `Idle`), the sequence
`MouseMove (within the hover radius) → MouseDown Left → MouseMove (outside the
radius) → MouseUp Left` ends in `Hovering`, and `onPointChanging` fires exactly
once — on the intermediate move while `Dragging` — with the fixed-domain
inverse mapping of that move's pixel position, unclamped. -/
theorem xy_pad_drag_sequence (env : XyEnv) (nx ny fx fy : ℚ)
    (hc : env.hasChanging = true)
    (hnear : Vec2.distanceSquared ⟨nx, ny⟩ (mapDataPoint env.bounds env.point)
      ≤ HOVER_RADIUS ^ 2)
    (hfar : ¬ Vec2.distanceSquared ⟨fx, fy⟩ (mapDataPoint env.bounds env.point)
      ≤ HOVER_RADIUS ^ 2) :
    xyRun env .NoOp
        [.MouseMove nx ny, .MouseDown .Left, .MouseMove fx fy, .MouseUp .Left]
      = (.Hovering,
         [.capture, .changingPoint (mapUiPoint env.bounds ⟨fx, fy⟩), .release]) := by
  simp [xyRun, xyStep, xyHandle, hnear, hfar, hc]

/-- C5 witness: point at the centre of a 100×100 pad, near move at distance 5,
far move at distance 30. -/
theorem xy_pad_drag_sequence_witness :
    Vec2.distanceSquared ⟨55, 50⟩
        (mapDataPoint ⟨0, 0, 100, 100⟩ ⟨0, 0⟩) ≤ HOVER_RADIUS ^ 2 ∧
    ¬ Vec2.distanceSquared ⟨80, 50⟩
        (mapDataPoint ⟨0, 0, 100, 100⟩ ⟨0, 0⟩) ≤ HOVER_RADIUS ^ 2 ∧
    xyRun ⟨⟨0, 0⟩, ⟨0, 0, 100, 100⟩, true⟩ .NoOp
        [.MouseMove 55 50, .MouseDown .Left, .MouseMove 80 50, .MouseUp .Left]
      = (.Hovering,
         [.capture,
          .changingPoint (mapUiPoint ⟨0, 0, 100, 100⟩ ⟨80, 50⟩), .release]) := by
  refine ⟨?_, ?_, ?_⟩
  · norm_num [Vec2.distanceSquared, mapDataPoint, HOVER_RADIUS]
  · norm_num [Vec2.distanceSquared, mapDataPoint, HOVER_RADIUS]
  · exact xy_pad_drag_sequence ⟨⟨0, 0⟩, ⟨0, 0, 100, 100⟩, true⟩ 55 50 80 50 rfl
      (by norm_num [Vec2.distanceSquared, mapDataPoint, HOVER_RADIUS])
      (by norm_num [Vec2.distanceSquared, mapDataPoint, HOVER_RADIUS])

/-- Unfolding of `graphRun` on a cons cell. -/
theorem graphRun_cons (env : GraphEnv) (s : GraphState) (ev : WindowEvent)
    (evs : List WindowEvent) :
    graphRun env s (ev :: evs) =
      match graphStep env s ev with
      | none => none
      | some (s', acts) =>
          match graphRun env s' evs with
          | none => none
          | some (s'', acts') => some (s'', acts ++ acts') := rfl

/-- Decomposition of a graph run over an appended event list. -/
theorem graphRun_append (env : GraphEnv) (evs evs' : List WindowEvent)
    (s : GraphState) :
    graphRun env s (evs ++ evs') =
      match graphRun env s evs with
      | none => none
      | some (s1, a1) =>
          match graphRun env s1 evs' with
          | none => none
          | some (s2, a2) => some (s2, a1 ++ a2) := by
  induction evs generalizing s with
  | nil =>
    cases h : graphRun env s evs' with
    | none => simp [graphRun, h]
    | some r =>
      obtain ⟨s2, a2⟩ := r
      simp [graphRun, h]
  | cons ev evs ih =>
    rw [List.cons_append, graphRun_cons, graphRun_cons]
    cases hstep : graphStep env s ev with
    | none => rfl
    | some p =>
      obtain ⟨s1, a1⟩ := p
      dsimp only
      rw [ih s1]
      cases h1 : graphRun env s1 evs with
      | none => rfl
      | some q =>
        obtain ⟨s2, a2⟩ := q
        dsimp only
        cases h2 : graphRun env s2 evs' with
        | none => rfl
        | some r2 =>
          obtain ⟨s3, a3⟩ := r2
          dsimp only
          rw [List.append_assoc]

/-- Unfolding of `xyRun` on a cons cell. -/
theorem xyRun_cons (env : XyEnv) (s : InternalState) (ev : WindowEvent)
    (evs : List WindowEvent) :
    xyRun env s (ev :: evs) =
      ((xyRun env (xyStep env s ev).1 evs).1,
       (xyStep env s ev).2 ++ (xyRun env (xyStep env s ev).1 evs).2) := rfl

/-- Decomposition of a pad run over an appended event list. -/
theorem xyRun_append (env : XyEnv) (evs evs' : List WindowEvent)
    (s : InternalState) :
    xyRun env s (evs ++ evs') =
      ((xyRun env (xyRun env s evs).1 evs').1,
       (xyRun env s evs).2 ++ (xyRun env (xyRun env s evs).1 evs').2) := by
  induction evs generalizing s with
  | nil => simp [xyRun]
  | cons ev evs ih =>
    rw [List.cons_append, xyRun_cons, ih, xyRun_cons env s ev evs]
    simp [List.append_assoc]

/-- `applyGActs` distributes over list append. -/
theorem applyGActs_append (c : Bool) (a b : List GAction) :
    applyGActs c (a ++ b) = applyGActs (applyGActs c a) b := by
  simp [applyGActs, List.foldl_append]

/-- `applyPActs` distributes over list append. -/
theorem applyPActs_append (c : Bool) (a b : List PAction) :
    applyPActs c (a ++ b) = applyPActs (applyPActs c a) b := by
  simp [applyPActs, List.foldl_append]

/-- The pad emits `capture` only while handling a left-button press. -/
theorem xyStep_capture_only (env : XyEnv) (s : InternalState) (ev : WindowEvent)
    (hmem : PAction.capture ∈ (xyStep env s ev).2) : ev = .MouseDown .Left := by
  cases ev with
  | MouseMove mx my =>
    exfalso
    simp only [xyStep, xyHandle] at hmem
    split at hmem <;> simp at hmem
  | MouseDown b =>
    cases b with
    | Left => rfl
    | Right => simp [xyStep, xyHandle] at hmem
    | Middle => simp [xyStep, xyHandle] at hmem
    | Other => simp [xyStep, xyHandle] at hmem
  | MouseUp b =>
    cases b with
    | Left => simp [xyStep, xyHandle] at hmem
    | Right => simp [xyStep, xyHandle] at hmem
    | Middle => simp [xyStep, xyHandle] at hmem
    | Other => simp [xyStep, xyHandle] at hmem

/-- C2 counterexample: the claim says `capture()` is called only on a
primary-button press made from an eligible state (AxisPad: `Hovering`), but
`XyPad::event` calls `cx.capture()` on every left press: here it fires from
`NoOp`, which is not `Hovering`. -/
theorem capture_eligibility_counterexample :
    (xyStep ⟨⟨0, 0⟩, ⟨0, 0, 100, 100⟩, true⟩ InternalState.NoOp
        (.MouseDown .Left)).2 = [PAction.capture] ∧
    InternalState.NoOp ≠ InternalState.Hovering :=
  ⟨rfl, by decide⟩

/-- C2 amended: the CurveEditor acquires capture exactly on a left press with
a point hovered, the AxisPad acquires capture on every left press (regardless
of state), neither widget captures on any other event, and any event sequence
ending in a left-button-up — or, for the CurveEditor, in a right-click while a
point is hovered — leaves capture released. -/
theorem capture_discipline_amended :
    (∀ env s r, graphStep env s (.MouseDown .Left) = some r →
        (GAction.capture ∈ r.2 ↔ s.activePointId.isSome = true)) ∧
    (∀ env s ev r, graphStep env s ev = some r → GAction.capture ∈ r.2 →
        ev = .MouseDown .Left) ∧
    (∀ env s, (xyStep env s (.MouseDown .Left)).2 = [PAction.capture]) ∧
    (∀ env s ev, PAction.capture ∈ (xyStep env s ev).2 →
        ev = .MouseDown .Left) ∧
    (∀ env s evs r c, graphRun env s (evs ++ [.MouseUp .Left]) = some r →
        applyGActs c r.2 = false) ∧
    (∀ env s evs mid c, graphRun env s evs = some mid →
        mid.1.activePointId.isSome = true →
        ∀ r, graphRun env s (evs ++ [.MouseDown .Right]) = some r →
          applyGActs c r.2 = false) ∧
    (∀ env s evs c,
        applyPActs c (xyRun env s (evs ++ [.MouseUp .Left])).2 = false) := by
  refine ⟨?_, ?_, ?_, ?_, ?_, ?_, ?_⟩
  · intro env s r h
    exact ((graphStep_actions_spec _ _ _ _ h).2).trans
      ⟨fun hp => hp.2, fun hs => ⟨rfl, hs⟩⟩
  · intro env s ev r h hc
    exact ((graphStep_actions_spec _ _ _ _ h).2.mp hc).1
  · intro env s
    rfl
  · exact xyStep_capture_only
  · intro env s evs r c h
    rw [graphRun_append] at h
    cases h1 : graphRun env s evs with
    | none =>
      rw [h1] at h
      exact Option.noConfusion h
    | some mid =>
      obtain ⟨s1, a1⟩ := mid
      rw [h1] at h
      dsimp only at h
      have h2 : graphRun env s1 [WindowEvent.MouseUp .Left]
          = some (⟨s1.activePointId, false⟩, [.release]) := rfl
      rw [h2] at h
      obtain rfl := (Option.some.inj h).symm
      rw [applyGActs_append]
      rfl
  · intro env s evs mid c h1 hsome r h
    obtain ⟨s1, a1⟩ := mid
    dsimp only at hsome
    obtain ⟨i, hi⟩ := Option.isSome_iff_exists.mp hsome
    rw [graphRun_append, h1] at h
    dsimp only at h
    have h2 : graphRun env s1 [WindowEvent.MouseDown .Right]
        = some (⟨some i, false⟩,
            GAction.release ::
              (if env.hasRemove then [GAction.removePoint i] else [])) := by
      simp [graphRun, graphStep, hi]
    rw [h2] at h
    obtain rfl := (Option.some.inj h).symm
    rw [applyGActs_append]
    cases hrm : env.hasRemove <;> simp [hrm, applyGActs]
  · intro env s evs c
    rw [xyRun_append]
    have h2 : (xyRun env (xyRun env s evs).1 [WindowEvent.MouseUp .Left]).2
        = [PAction.release] := rfl
    rw [h2, applyPActs_append]
    rfl

/-- C2 witness: a concrete graph run ending in a left-button-up leaves capture
released, and a concrete pad left press emits exactly one capture. -/
theorem capture_discipline_amended_witness :
    (∃ r, graphRun
        { points := [⟨0, 0⟩, ⟨2, 1⟩, ⟨5, 1/2⟩, ⟨8, 0⟩],
          range := ⟨0, 1⟩, maxDomain := 8, bounds := ⟨0, 0, 100, 100⟩,
          hasChanging := true, hasRemove := true }
        ⟨some 0, true⟩ ([.MouseDown .Left] ++ [.MouseUp .Left]) = some r ∧
      applyGActs false r.2 = false) ∧
    (xyStep ⟨⟨0, 0⟩, ⟨0, 0, 100, 100⟩, true⟩ InternalState.NoOp
        (.MouseDown .Left)).2 = [PAction.capture] := by
  have hrun : graphRun
      { points := [⟨0, 0⟩, ⟨2, 1⟩, ⟨5, 1/2⟩, ⟨8, 0⟩],
        range := ⟨0, 1⟩, maxDomain := 8, bounds := ⟨0, 0, 100, 100⟩,
        hasChanging := true, hasRemove := true }
      (⟨some 0, true⟩ : GraphState) ([.MouseDown .Left] ++ [.MouseUp .Left])
      = some (⟨some 0, false⟩, [.capture, .release]) := rfl
  exact ⟨⟨_, hrun, capture_discipline_amended.2.2.2.2.1 _ _ _ _ false hrun⟩,
    capture_discipline_amended.2.2.1 _ _⟩

/-- Head of an insertion step. -/
theorem insertByDist_head (cur : Vec2) (a : Nat × Vec2) (l : List (Nat × Vec2)) :
    (insertByDist cur a l).head? = some (match l.head? with
      | none => a
      | some b => if distKey cur b < distKey cur a then b else a) := by
  cases l with
  | nil => rfl
  | cons b l =>
    simp only [insertByDist, List.head?]
    by_cases hC : distKey cur b < distKey cur a <;> simp [hC]

/-- The head of the stable distance sort is the earliest least-distance
element. -/
theorem sortByDist_head (cur : Vec2) (l : List (Nat × Vec2)) :
    (sortByDist cur l).head? = firstMin cur l := by
  induction l with
  | nil => rfl
  | cons a l ih =>
    simp only [sortByDist, insertByDist_head, firstMin]
    rw [ih]
    cases firstMin cur l <;> rfl

/-- `firstMin` misses exactly on the empty list. -/
theorem firstMin_eq_none_iff (cur : Vec2) (l : List (Nat × Vec2)) :
    firstMin cur l = none ↔ l = [] := by
  cases l with
  | nil => simp [firstMin]
  | cons a l =>
    simp only [firstMin]
    cases firstMin cur l <;> simp

/-- `firstMin` returns an element of the list. -/
theorem firstMin_mem (cur : Vec2) (l : List (Nat × Vec2)) (m : Nat × Vec2)
    (h : firstMin cur l = some m) : m ∈ l := by
  induction l generalizing m with
  | nil => exact absurd h (by simp [firstMin])
  | cons a l ih =>
    simp only [firstMin] at h
    cases hf : firstMin cur l with
    | none =>
      rw [hf] at h
      obtain rfl := Option.some.inj h
      exact List.mem_cons_self _ _
    | some b =>
      rw [hf] at h
      obtain rfl := Option.some.inj h
      by_cases hlt : distKey cur b < distKey cur a
      · rw [if_pos hlt]
        exact List.mem_cons_of_mem _ (ih b hf)
      · rw [if_neg hlt]
        exact List.mem_cons_self _ _

/-- `firstMin` attains the least squared distance. -/
theorem firstMin_min (cur : Vec2) (l : List (Nat × Vec2)) (m : Nat × Vec2)
    (h : firstMin cur l = some m) :
    ∀ z ∈ l, distKey cur m ≤ distKey cur z := by
  induction l generalizing m with
  | nil => exact absurd h (by simp [firstMin])
  | cons a l ih =>
    intro z hz
    simp only [firstMin] at h
    cases hf : firstMin cur l with
    | none =>
      rw [hf] at h
      obtain rfl := Option.some.inj h
      have hl : l = [] := (firstMin_eq_none_iff cur l).mp hf
      subst hl
      rcases List.mem_cons.mp hz with rfl | hz
      · exact le_refl _
      · simp at hz
    | some b =>
      rw [hf] at h
      obtain rfl := Option.some.inj h
      by_cases hlt : distKey cur b < distKey cur a
      · rw [if_pos hlt]
        rcases List.mem_cons.mp hz with rfl | hz
        · exact le_of_lt hlt
        · exact ih b hf z hz
      · rw [if_neg hlt]
        rcases List.mem_cons.mp hz with rfl | hz
        · exact le_refl _
        · exact le_trans (not_lt.mp hlt) (ih b hf z hz)

/-- On a list with strictly increasing indices, `firstMin` returns the
smallest index among the elements attaining the least distance. -/
theorem firstMin_first (cur : Vec2) (l : List (Nat × Vec2)) (m : Nat × Vec2)
    (hp : List.Pairwise (fun x y => x.1 < y.1) l)
    (h : firstMin cur l = some m) :
    ∀ z ∈ l, distKey cur z = distKey cur m → m.1 ≤ z.1 := by
  induction l generalizing m with
  | nil => exact absurd h (by simp [firstMin])
  | cons a l ih =>
    obtain ⟨hpa, hpl⟩ := List.pairwise_cons.mp hp
    intro z hz heq
    simp only [firstMin] at h
    cases hf : firstMin cur l with
    | none =>
      rw [hf] at h
      obtain rfl := Option.some.inj h
      have hl : l = [] := (firstMin_eq_none_iff cur l).mp hf
      subst hl
      rcases List.mem_cons.mp hz with rfl | hz
      · exact le_refl _
      · simp at hz
    | some b =>
      rw [hf] at h
      obtain rfl := Option.some.inj h
      by_cases hlt : distKey cur b < distKey cur a
      · rw [if_pos hlt] at heq ⊢
        rcases List.mem_cons.mp hz with rfl | hz
        · exact absurd heq.symm (ne_of_lt hlt)
        · exact ih b hpl hf z hz heq
      · rw [if_neg hlt] at heq ⊢
        rcases List.mem_cons.mp hz with rfl | hz
        · exact le_refl _
        · exact le_of_lt (hpa z hz)

/-- Every element of `enumFrom n l` has index at least `n`. -/
theorem mem_enumFrom_le {α : Type} (n : Nat) (l : List α) (p : Nat × α)
    (h : p ∈ List.enumFrom n l) : n ≤ p.1 := by
  induction l generalizing n with
  | nil => simp [List.enumFrom] at h
  | cons x l ih =>
    rcases List.mem_cons.mp h with rfl | h
    · exact le_refl n
    · exact Nat.le_of_succ_le (ih (n + 1) h)

/-- `enumFrom` produces strictly increasing indices. -/
theorem enumFrom_pairwise {α : Type} (n : Nat) (l : List α) :
    List.Pairwise (fun x y => x.1 < y.1) (List.enumFrom n l) := by
  induction l generalizing n with
  | nil => simp [List.enumFrom]
  | cons x l ih =>
    simp only [List.enumFrom]
    exact List.Pairwise.cons
      (fun p hp =>
        Nat.lt_of_lt_of_le (Nat.lt_succ_self n) (mem_enumFrom_le (n + 1) l p hp))
      (ih (n + 1))

/-- C4: on a pointer-move while not dragging, the hover target becomes the
index of the point whose pixel position has minimum distance to the cursor
among all points within `HOVER_RADIUS` (inclusive), with equidistant ties
resolved to the smallest original index, and becomes `None` when no point is
within the radius. -/
theorem mseg_hover_selection (env : GraphEnv) (s : GraphState) (mx my : ℚ)
    (hd : s.isDraggingPoint = false) :
    ∃ s', graphStep env s (.MouseMove mx my) = some (s', []) ∧
      (∀ i, s'.activePointId = some i →
        ∃ p, (uiPoints env).get? i = some p ∧
          p.distanceSquared ⟨mx, my⟩ ≤ HOVER_RADIUS ^ 2 ∧
          ∀ j q, (uiPoints env).get? j = some q →
            q.distanceSquared ⟨mx, my⟩ ≤ HOVER_RADIUS ^ 2 →
            p.distanceSquared ⟨mx, my⟩ ≤ q.distanceSquared ⟨mx, my⟩ ∧
              (q.distanceSquared ⟨mx, my⟩ = p.distanceSquared ⟨mx, my⟩ → i ≤ j)) ∧
      (s'.activePointId = none ↔
        ∀ j q, (uiPoints env).get? j = some q →
          ¬ q.distanceSquared ⟨mx, my⟩ ≤ HOVER_RADIUS ^ 2) := by
  have hhead := sortByDist_head ⟨mx, my⟩
    ((uiPoints env).enum.filter
      (fun ip => ip.2.distanceSquared ⟨mx, my⟩ ≤ HOVER_RADIUS ^ 2))
  cases hfm : firstMin ⟨mx, my⟩
      ((uiPoints env).enum.filter
        (fun ip => ip.2.distanceSquared ⟨mx, my⟩ ≤ HOVER_RADIUS ^ 2)) with
  | none =>
    have hemp := (firstMin_eq_none_iff _ _).mp hfm
    refine ⟨{ s with activePointId := none }, ?_, ?_, ?_⟩
    · simp [graphStep, hd, hhead, hfm]
    · intro i hi
      exact absurd hi (by simp)
    · refine ⟨fun _ j q hjq hle => ?_, fun _ => rfl⟩
      have hmem : (j, q) ∈ ((uiPoints env).enum.filter
          (fun ip => ip.2.distanceSquared ⟨mx, my⟩ ≤ HOVER_RADIUS ^ 2)) :=
        List.mem_filter.mpr ⟨List.mem_enum_iff_get?.mpr hjq, by simpa using hle⟩
      rw [hemp] at hmem
      simp at hmem
  | some m =>
    have hmemL := firstMin_mem _ _ _ hfm
    have hmem := List.mem_filter.mp hmemL
    have hget : (uiPoints env).get? m.1 = some m.2 :=
      List.mem_enum_iff_get?.mp hmem.1
    have hpred : m.2.distanceSquared ⟨mx, my⟩ ≤ HOVER_RADIUS ^ 2 := by
      simpa using hmem.2
    have hpair : List.Pairwise (fun x y => x.1 < y.1)
        ((uiPoints env).enum.filter
          (fun ip => ip.2.distanceSquared ⟨mx, my⟩ ≤ HOVER_RADIUS ^ 2)) :=
      List.Pairwise.filter _ (enumFrom_pairwise 0 (uiPoints env))
    refine ⟨{ s with activePointId := some m.1 }, ?_, ?_, ?_⟩
    · simp [graphStep, hd, hhead, hfm]
    · intro i hi
      obtain rfl : m.1 = i := Option.some.inj hi
      refine ⟨m.2, hget, hpred, ?_⟩
      intro j q hjq hle
      have hmemq : (j, q) ∈ ((uiPoints env).enum.filter
          (fun ip => ip.2.distanceSquared ⟨mx, my⟩ ≤ HOVER_RADIUS ^ 2)) :=
        List.mem_filter.mpr ⟨List.mem_enum_iff_get?.mpr hjq, by simpa using hle⟩
      exact ⟨firstMin_min _ _ _ hfm (j, q) hmemq,
        fun heq => firstMin_first _ _ _ hpair hfm (j, q) hmemq heq⟩
    · refine ⟨fun hcontra => absurd hcontra (by simp), fun hall => ?_⟩
      exact absurd hpred (hall m.1 m.2 hget)

/-- C4 witness: two points, one within the hover radius of the cursor. -/
theorem mseg_hover_selection_witness :
    (⟨none, false⟩ : GraphState).isDraggingPoint = false ∧
    ∃ s', graphStep
        { points := [⟨0, 0⟩, ⟨2, 1⟩, ⟨5, 1/2⟩, ⟨8, 0⟩],
          range := ⟨0, 1⟩, maxDomain := 8, bounds := ⟨0, 0, 100, 100⟩,
          hasChanging := true, hasRemove := true }
        ⟨none, false⟩ (.MouseMove 10 100) = some (s', []) ∧
      (∀ i, s'.activePointId = some i →
        ∃ p, (uiPoints
            { points := [⟨0, 0⟩, ⟨2, 1⟩, ⟨5, 1/2⟩, ⟨8, 0⟩],
              range := ⟨0, 1⟩, maxDomain := 8, bounds := ⟨0, 0, 100, 100⟩,
              hasChanging := true, hasRemove := true }).get? i = some p ∧
          p.distanceSquared ⟨10, 100⟩ ≤ HOVER_RADIUS ^ 2 ∧
          ∀ j q, (uiPoints
              { points := [⟨0, 0⟩, ⟨2, 1⟩, ⟨5, 1/2⟩, ⟨8, 0⟩],
                range := ⟨0, 1⟩, maxDomain := 8, bounds := ⟨0, 0, 100, 100⟩,
                hasChanging := true, hasRemove := true }).get? j = some q →
            q.distanceSquared ⟨10, 100⟩ ≤ HOVER_RADIUS ^ 2 →
            p.distanceSquared ⟨10, 100⟩ ≤ q.distanceSquared ⟨10, 100⟩ ∧
              (q.distanceSquared ⟨10, 100⟩ = p.distanceSquared ⟨10, 100⟩ →
                i ≤ j)) ∧
      (s'.activePointId = none ↔
        ∀ j q, (uiPoints
            { points := [⟨0, 0⟩, ⟨2, 1⟩, ⟨5, 1/2⟩, ⟨8, 0⟩],
              range := ⟨0, 1⟩, maxDomain := 8, bounds := ⟨0, 0, 100, 100⟩,
              hasChanging := true, hasRemove := true }).get? j = some q →
          ¬ q.distanceSquared ⟨10, 100⟩ ≤ HOVER_RADIUS ^ 2) :=
  ⟨rfl, mseg_hover_selection _ ⟨none, false⟩ 10 100 rfl⟩

end Lily
